import Mathlib

/-!
Verification development for the `rbrb` rollback-networking library.

Each Rust source construct used by the properties below is shallowly embedded
as an executable Lean definition:

* `exponential_keeping.rs` → `kept_set` (fuelled recursion, fuel is provably
  irrelevant once it exceeds the argument), with `next_power_of_two` and
  `is_power_of_two` modelling the `u32` methods of the same names;
* `utils/mod.rs` → `div_duration` (binary search over the `u32` range,
  `Duration`s modelled as nanosecond counts);
* `inputs.rs` → `NatMap` (a `BTreeMap Frame → V`), `SparseInputs`,
  `InputStorage`, `PlayerInputs`, `Confirmation`;
* `time.rs` → `SharedClock.elapsed` (the monotone clamp) and
  `NetworkQuality.remove_old_data`;
* `lib.rs` / `request_handler.rs` → `Message`, `processMessage`,
  `CFlow.always`, `Session.advanceWith`, and the storage operations reachable
  from the driver loop.

Frames, instants and durations are `ℕ`; serialized byte blobs are an arbitrary
type `V` with decidable equality.
-/

namespace Rbrb

/-- `u32::next_power_of_two`, fuelled helper: the least power of two that is
`≥ n` (and `1` for `n = 0`).  Recursion: `np2 n = 2 * np2 ⌈n/2⌉` for `n ≥ 2`. -/
def np2go : ℕ → ℕ → ℕ
  | 0, _ => 1
  | fuel + 1, n => if n ≤ 1 then 1 else 2 * np2go fuel ((n + 1) / 2)

/-- `u32::next_power_of_two` (total on `ℕ`; `nextPow2 0 = 1` as in Rust). -/
def nextPow2 (n : ℕ) : ℕ := np2go n n

/-- `u32::is_power_of_two`: true iff `n` is `2 ^ t` for some `t` (false at 0). -/
def is_power_of_two (n : ℕ) : Bool :=
  (List.range (n + 1)).any (fun t => 2 ^ t == n)

/-- `exponential_keeping::kept_set` / `naive_kept_set`, fuelled.  The body is a
direct transcription of the Rust pair of mutually recursive functions: the
naive set is `∅` at 0, `{0}` at 1, and otherwise the doubled recursive set
plus `total - 1`; `kept_set` additionally inserts
`(total / 2).next_power_of_two()` when `total` is not a power of two. -/
def kept_go : ℕ → ℕ → Finset ℕ
  | 0, _ => ∅
  | fuel + 1, total =>
    let naive : Finset ℕ :=
      if total = 0 then ∅
      else if total = 1 then {0}
      else (kept_go fuel (total / 2)).image (fun n => n * 2) ∪ {total - 1}
    if is_power_of_two total then naive else insert (nextPow2 (total / 2)) naive

/-- `exponential_keeping::kept_set total`; fuel `total + 1` always suffices
(`kept_go_fuel` below proves fuel-irrelevance). -/
def kept_set (total : ℕ) : Finset ℕ := kept_go (total + 1) total

/-- The spec's reference recursion for the kept-set, verbatim from the spec's
words: `kept(0) = {}`, `kept(1) = {0}`, otherwise
`kept(U) = {2k : k ∈ kept(⌊U/2⌋)} ∪ {U-1}`, plus `{next_power_of_two(U/2)}`
when `U` is not a power of two. -/
def specKept (U : ℕ) : Finset ℕ :=
  if U = 0 then ∅
  else if U = 1 then {0}
  else
    let base := (specKept (U / 2)).image (fun k => 2 * k) ∪ {U - 1}
    if is_power_of_two U then base else insert (nextPow2 (U / 2)) base
termination_by U
decreasing_by exact Nat.div_lt_self (by omega) (by omega)

/-- `n` is a power of two (the mathematical predicate behind
`is_power_of_two`). -/
def IsP2 (n : ℕ) : Prop := ∃ t, 2 ^ t = n

/-! ## `utils::div_duration`

`Duration`s are modelled as nanosecond counts in `ℕ`; `Duration * u32`,
comparison and subtraction are exact on the values the search visits.
`divGo n d fuel mn mx` is the binary-search loop of `div_duration` with the
loop turned into fuelled recursion; every iteration at least halves
`mx - mn`, so fuel 32 covers the initial interval `[0, u32::MAX]`. -/

def divGo (n d : ℕ) : ℕ → ℕ → ℕ → ℕ × ℕ
  | 0, mn, _ => (mn, n - d * mn)
  | fuel + 1, mn, mx =>
    if 1 < mx - mn then
      let mid := mn + (mx - mn) / 2
      if d * mid = n then (mid, 0)
      else if n < d * mid then divGo n d fuel mn mid
      else divGo n d fuel mid mx
    else (mn, n - d * mn)

/-- `utils::div_duration(numerator, denominator)`: binary search for the
quotient over the `u32` range, starting from `min = 0`, `max = u32::MAX`. -/
def div_duration (n d : ℕ) : ℕ × ℕ := divGo n d 32 0 (2 ^ 32 - 1)

/-- `Duration::MAX` in nanoseconds: `u64::MAX` seconds plus `999_999_999`
nanoseconds. -/
def durationMax : ℕ := (2 ^ 64 - 1) * 1000000000 + 999999999

/-! ## `time.rs`: shared clock monotone clamp, network-quality pruning

`utils::Signed<T>` is the tagged {Pos, Neg} pair; `SharedClock::elapsed`
reads `signed_elapsed()?.pos()?` (an arbitrary, possibly backward-moving
value produced by drift control and the wall clock — modelled as an
arbitrary input per call), clamps it against the stored `last_elapsed`
duration, stores the clamp and returns it.  When either `?` exits the
stored duration is untouched and `None` is returned. -/

inductive Signed (α : Type) where
  | pos (a : α)
  | neg (a : α)
deriving DecidableEq, Repr

/-- `Signed::pos(self) -> Option<T>`. -/
def Signed.posValue : Signed α → Option α
  | .pos a => some a
  | .neg _ => none

/-- One call of `SharedClock::elapsed`: input is the current
`signed_elapsed()` value, state is the `last_elapsed` lock contents;
returns (result, new state). -/
def clockElapsedStep (last : ℕ) (sig : Option (Signed ℕ)) : Option ℕ × ℕ :=
  match sig with
  | none => (none, last)
  | some s =>
    match s.posValue with
    | none => (none, last)
    | some correct => (some (max correct last), max correct last)

/-- A sequence of `elapsed()` calls starting from stored duration `last`
(initially `Duration::ZERO`), fed an arbitrary `signed_elapsed` value at
each call; returns the list of results. -/
def runClock (last : ℕ) : List (Option (Signed ℕ)) → List (Option ℕ)
  | [] => []
  | s :: rest =>
    (clockElapsedStep last s).1 :: runClock (clockElapsedStep last s).2 rest

/-! ### `NetworkQuality::remove_old_data`

`rtts` is a `BTreeMap<Instant, Duration>` modelled as a list of
`(instant, rtt)` pairs in ascending key order; `outgoing` is the
`HashMap<u64, Instant>` of outstanding pings modelled as `(id, sent_at)`
pairs.  The function: returns unchanged when `rtts.len() ≤ 10`; otherwise
pops the smallest `rtts` key while more than 10 remain, takes the oldest
retained key as `keep_after`, and removes every outgoing entry whose send
instant `at` satisfies `at >= keep_after` (keeping `at < keep_after`). -/

def dropToCap : List (ℕ × ℕ) → List (ℕ × ℕ)
  | [] => []
  | x :: xs => if 10 < (x :: xs).length then dropToCap xs else x :: xs

def removeOldData (rtts outgoing : List (ℕ × ℕ)) :
    List (ℕ × ℕ) × List (ℕ × ℕ) :=
  if rtts.length ≤ 10 then (rtts, outgoing)
  else
    match (dropToCap rtts).head? with
    | none => (dropToCap rtts, outgoing)
    | some ka => (dropToCap rtts, outgoing.filter (fun kv => ¬ ka.1 ≤ kv.2))

/-! ## `inputs.rs`

A `BTreeMap<Frame, V>` is modelled as a finite key set plus a value
function (`NatMap`); `Frame` is `ℕ`, serialized input blobs are an
arbitrary `V` with decidable equality (the code only compares them for
byte-equality during compaction). -/

structure NatMap (V : Type) where
  keys : Finset ℕ
  val : ℕ → V

inductive Confirmation (V : Type) where
  | confirmed (v : V)
  | unconfirmed (v : V)
deriving DecidableEq, Repr

/-- `BTreeMap::insert` (overwrites). -/
def NatMap.insertKV (m : NatMap V) (k : ℕ) (v : V) : NatMap V :=
  ⟨insert k m.keys, Function.update m.val k v⟩

/-- `BTreeMap::entry(k).or_insert(v)` (keeps an existing value). -/
def NatMap.orInsert (m : NatMap V) (k : ℕ) (v : V) : NatMap V :=
  if k ∈ m.keys then m else m.insertKV k v

/-- `BTreeMap::remove(&k)`. -/
def NatMap.eraseKey (m : NatMap V) (k : ℕ) : NatMap V :=
  ⟨m.keys.erase k, m.val⟩

/-- `SparseInputs::at(frame)`: `before` is the greatest key `≤ frame`
(`None` if there is none), `after` witnesses a key `≥ frame`; the result is
`Confirmed` when the frame itself is a key or a key at-or-after the frame
exists, `Unconfirmed` otherwise. -/
def NatMap.atFrame (m : NatMap V) (frame : ℕ) : Option (Confirmation V) :=
  if h : (m.keys.filter (fun k => k ≤ frame)).Nonempty then
    let bf := (m.keys.filter (fun k => k ≤ frame)).max' h
    if bf = frame then some (.confirmed (m.val bf))
    else if (m.keys.filter (fun k => frame ≤ k)).Nonempty then
      some (.confirmed (m.val bf))
    else some (.unconfirmed (m.val bf))
  else none

structure SparseInputs (V : Type) where
  map : NatMap V
  next_compact : ℕ

/-- `SparseInputs::compact`, fuelled: at each iteration take the two
smallest keys at-or-after `next_compact` (exit keeping state if fewer than
two remain, so the newest key is never compacted); if the value of the
greatest key before `next_compact` equals the first's value, remove that
first key; advance `next_compact` past it.  Every iteration moves
`next_compact` strictly past another existing key, so `card + 1` fuel always
finishes the loop. -/
def compactGo [DecidableEq V] : ℕ → SparseInputs V → SparseInputs V
  | 0, s => s
  | fuel + 1, s =>
    match ((s.map.keys.filter (fun k => s.next_compact ≤ k)).sort (· ≤ ·)).head?,
        ((s.map.keys.filter (fun k => s.next_compact ≤ k)).sort (· ≤ ·)).get? 1 with
    | some nf, some _ =>
      let s1 :=
        match ((s.map.keys.filter (fun k => k < s.next_compact)).sort (· ≤ ·)).getLast? with
        | some b =>
          if s.map.val b = s.map.val nf then { s with map := s.map.eraseKey nf }
          else s
        | none => s
      compactGo fuel { s1 with next_compact := nf + 1 }
    | _, _ => s

def SparseInputs.compact [DecidableEq V] (s : SparseInputs V) : SparseInputs V :=
  compactGo (s.map.keys.card + 1) s

/-- `SparseInputs::capture_into(frame)` with the caller's write folded in:
rejected if the key exists; otherwise compaction runs and a fresh entry at
`frame` is allocated, which the host fills with `v`. -/
def SparseInputs.captureInto [DecidableEq V] (s : SparseInputs V) (frame : ℕ)
    (v : V) : Option (SparseInputs V) :=
  if frame ∈ s.map.keys then none
  else some { s.compact with map := s.compact.map.insertKV frame v }

/-- `InputStorage`: per-player sparse inputs plus the configured default
blob.  `players` is the `HashMap` key set; `inputs` is meaningful on it. -/
structure InputStorage (V : Type) where
  players : Finset ℕ
  inputs : ℕ → SparseInputs V
  dflt : V

/-- `InputStorage::with_default`. -/
def InputStorage.withDefault (d : V) : InputStorage V :=
  ⟨∅, fun _ => ⟨⟨∅, fun _ => d⟩, 0⟩, d⟩

/-- The sparse map `sparse_mut` seeds for a new player: `Frame(0)` mapped to
the configured default. -/
def seededSparse (d : V) : SparseInputs V := ⟨⟨{0}, fun _ => d⟩, 0⟩

/-- `InputStorage::sparse_mut(id)`'s state effect:
`entry(id).or_insert_with(default-seeded map)`. -/
def InputStorage.sparseMut (s : InputStorage V) (id : ℕ) : InputStorage V :=
  if id ∈ s.players then s
  else
    { s with
      players := insert id s.players
      inputs := Function.update s.inputs id (seededSparse s.dflt) }

/-- Write player `p`'s sparse map (the `&mut` returned by the entry API). -/
def InputStorage.setSparse (s : InputStorage V) (p : ℕ) (sp : SparseInputs V) :
    InputStorage V :=
  { s with
    players := insert p s.players
    inputs := Function.update s.inputs p sp }

/-- `InputStorage::capture_into(frame, local_id)`: `Frame(0)` is rejected
before any state change; otherwise the local player's map is seeded if
missing and the sparse capture runs. -/
def InputStorage.captureInto [DecidableEq V] (s : InputStorage V)
    (frame localId : ℕ) (v : V) : Option Unit × InputStorage V :=
  if frame = 0 then (none, s)
  else
    match ((s.sparseMut localId).inputs localId).captureInto frame v with
    | none => (none, s.sparseMut localId)
    | some sp => (some (), (s.sparseMut localId).setSparse localId sp)

/-- `self.inputs.entry(player).or_default()`: inserts an **empty** sparse
map (no `Frame(0)` seeding) when the player is missing. -/
def InputStorage.orDefaultTouch (s : InputStorage V) (p : ℕ) : InputStorage V :=
  if p ∈ s.players then s
  else
    { s with
      players := insert p s.players
      inputs := Function.update s.inputs p ⟨⟨∅, fun _ => s.dflt⟩, 0⟩ }

/-- One iteration of the `merge_remote` loop:
`self.inputs.entry(player).or_default().entry(frame).or_insert(input)`. -/
def mergeStep (player : ℕ) (st : InputStorage V) (kv : ℕ × V) : InputStorage V :=
  (st.orDefaultTouch player).setSparse player
    { (st.orDefaultTouch player).inputs player with
      map := ((st.orDefaultTouch player).inputs player).map.orInsert kv.1 kv.2 }

/-- `InputStorage::merge_remote(player, map)`: for each batch entry,
`entry(player).or_default().entry(frame).or_insert(input)`. -/
def InputStorage.mergeRemote (s : InputStorage V) (player : ℕ)
    (batch : List (ℕ × V)) : InputStorage V :=
  batch.foldl (mergeStep player) s

/-- `InputStorage::player_since_frame(player_id, frame)`: seeds the player's
map if missing and returns its entries with key `≥ frame` (with the mutated
storage). -/
def InputStorage.playerSinceFrame (s : InputStorage V) (playerId frame : ℕ) :
    List (ℕ × V) × InputStorage V :=
  (((((s.sparseMut playerId).inputs playerId).map.keys.filter
        (fun k => frame ≤ k)).sort (· ≤ ·)).map
      (fun k => (k, ((s.sparseMut playerId).inputs playerId).map.val k)),
    s.sparseMut playerId)

/-- `PlayerInputs`: map player → tagged input. -/
structure PlayerInputs (V : Type) where
  keys : Finset ℕ
  val : ℕ → Confirmation V

/-- `InputStorage::at_frame(frame)`: one entry per stored player whose
sparse read at `frame` is `Some`; `None` when that set is empty. -/
def InputStorage.atFrame (s : InputStorage V) (frame : ℕ) :
    Option (PlayerInputs V) :=
  if (s.players.filter (fun p => ((s.inputs p).map.atFrame frame).isSome)) = ∅
  then none
  else some
    ⟨s.players.filter (fun p => ((s.inputs p).map.atFrame frame).isSome),
      fun p => ((s.inputs p).map.atFrame frame).getD (.unconfirmed s.dflt)⟩

/-- `PlayerInputs::is_fully_populated(remote_count)` (after the
`len <= should_have` assertion, which claim C10 proves). -/
def PlayerInputs.isFullyPopulated (pi : PlayerInputs V) (remoteCount : ℕ) :
    Bool :=
  pi.keys.card = remoteCount + 1

/-! ## Reachable input-store states (claim C10)

The driver mutates the input store through exactly three paths:
`capture_inputs` → `capture_into(realtime, local_id)`;
`process_incoming_messages` → `merge_remote(player, map)` where `player` was
looked up in `player_addresses` (datagrams from unknown addresses are
discarded first, so `player` is a configured remote id); and
`send_messages` → `player_since_frame(local_id, unc)`.  `SessionOp` is that
alphabet; `opValid` records the address-filter constraint on merges. -/

inductive SessionOp (V : Type) where
  | capture (frame : ℕ) (v : V)
  | mergeRemote (player : ℕ) (batch : List (ℕ × V))
  | sinceFrame (frame : ℕ)

def opValid (remoteIds : Finset ℕ) : SessionOp V → Bool
  | .mergeRemote p _ => decide (p ∈ remoteIds)
  | _ => true

def applyOp [DecidableEq V] (localId : ℕ) (s : InputStorage V) :
    SessionOp V → InputStorage V
  | .capture f v => (s.captureInto f localId v).2
  | .mergeRemote p batch => s.mergeRemote p batch
  | .sinceFrame f => (s.playerSinceFrame localId f).2

def applyOps [DecidableEq V] (localId : ℕ) (s : InputStorage V) :
    List (SessionOp V) → InputStorage V
  | [] => s
  | op :: rest => applyOps localId (applyOp localId s op) rest

/-! ## `lib.rs` wire envelope and driver dispatch (claim C5)

`Message` mirrors the crate's wire enum; bincode tags enum variants by
declaration index, recorded by `Message.tag`.  `processMessage` is the match
inside `process_incoming_messages` after the address lookup and decode
succeeded: the relevant session state is the input store, the
`remote_unconfirmed` map, and the shared clock (kept abstract as `C`; the
dispatcher calls the supplied `clockReceive` exactly as the driver calls
`self.shared_clock.receive_message(addr, m)`). -/

inductive NetworkAnalysisMessage where
  | Ping (id : ℕ)
  | Pong (id : ℕ) (remoteProcessing : ℕ)
deriving DecidableEq, Repr

inductive ClockMessage where
  | Elapsed (d : Signed ℕ)
  | NetworkAnalysis (m : NetworkAnalysisMessage)
deriving DecidableEq, Repr

inductive Message (V : Type) where
  | Inputs (map : List (ℕ × V))
  | Unconfirmed (frame : ℕ)
  | Clock (m : ClockMessage)

/-- The variant set of the wire envelope, payloads forgotten. -/
inductive MessageKind where
  | Inputs
  | Unconfirmed
  | Clock
deriving DecidableEq, Fintype, Repr

def Message.kind : Message V → MessageKind
  | .Inputs _ => .Inputs
  | .Unconfirmed _ => .Unconfirmed
  | .Clock _ => .Clock

/-- bincode's enum tag: the variant's declaration index. -/
def Message.tag : Message V → ℕ
  | .Inputs _ => 0
  | .Unconfirmed _ => 1
  | .Clock _ => 2

structure NetState (V : Type) (C : Type) where
  storage : InputStorage V
  remoteUnconfirmed : ℕ → Option ℕ
  clock : C

/-- The per-message dispatch of `Session::process_incoming_messages`. -/
def processMessage (clockReceive : C → ℕ → ClockMessage → C)
    (st : NetState V C) (addr player : ℕ) : Message V → NetState V C
  | .Inputs map => { st with storage := st.storage.mergeRemote player map }
  | .Unconfirmed frame =>
    { st with
      remoteUnconfirmed :=
        Function.update st.remoteUnconfirmed player
          (some (max ((st.remoteUnconfirmed player).getD frame) frame)) }
  | .Clock m => { st with clock := clockReceive st.clock addr m }

/-! ## `request_handler.rs`: `ControlFlowExt::always` (claim C9) -/

inductive CFlow (B : Type) (C : Type) where
  | Break (b : B)
  | Continue (c : C)
deriving DecidableEq, Repr

/-- `ControlFlowExt::always(self, f)`: run `f` first (its state effect always
happens), then propagate `self`'s break, else continue with `f`'s result. -/
def CFlow.always (self : CFlow B Unit) (st : S) (f : S → S × R) :
    S × CFlow B R :=
  ((f st).1,
    match self with
    | .Break b => .Break b
    | .Continue _ => .Continue (f st).2)

structure AdvanceState where
  host_at : ℕ

/-- The state effect of `Session::advance_with`: issue the `Advance` request
(whose outcome is the handler's `ControlFlow` answer) and
`.always(|| self.host_at += amount)`. -/
def Session.advanceWith (s : AdvanceState) (handlerResult : CFlow B Unit)
    (amount : ℕ) : AdvanceState × CFlow B Unit :=
  CFlow.always handlerResult s (fun st => (⟨st.host_at + amount⟩, ()))

example : kept_set 2 = {0, 1} := by decide

example : kept_set 29 = {0, 8, 16, 24, 26, 28} := by decide

example : kept_set 0 = {1} := by decide

example : (7 ∈ kept_set 8 ∧ 7 ∉ kept_set 9) := by decide

lemma isPow2_iff (n : ℕ) : is_power_of_two n = true ↔ IsP2 n := by
  simp only [is_power_of_two, List.any_eq_true, List.mem_range, beq_iff_eq, IsP2]
  constructor
  · rintro ⟨t, -, ht⟩; exact ⟨t, ht⟩
  · rintro ⟨t, ht⟩
    exact ⟨t, by have := Nat.lt_two_pow t; omega, ht⟩

lemma isPow2_false_iff (n : ℕ) : is_power_of_two n = false ↔ ¬IsP2 n := by
  rw [← isPow2_iff]; cases is_power_of_two n <;> simp

lemma np2go_pow (fuel : ℕ) : ∀ n, n ≤ fuel → ∃ t, np2go fuel n = 2 ^ t := by
  induction fuel with
  | zero => intro n h; exact ⟨0, rfl⟩
  | succ fuel IH =>
    intro n h
    by_cases h1 : n ≤ 1
    · exact ⟨0, by simp [np2go, h1]⟩
    · obtain ⟨t, ht⟩ := IH ((n + 1) / 2) (by omega)
      exact ⟨t + 1, by simp [np2go, h1, ht, pow_succ, mul_comm]⟩

lemma np2go_ge (fuel : ℕ) : ∀ n, n ≤ fuel → n ≤ np2go fuel n := by
  induction fuel with
  | zero => intro n h; omega
  | succ fuel IH =>
    intro n h
    by_cases h1 : n ≤ 1
    · simpa [np2go, h1] using h1
    · have := IH ((n + 1) / 2) (by omega)
      simp only [np2go, h1, if_false]
      omega

lemma np2go_min (fuel : ℕ) : ∀ n t, n ≤ fuel → n ≤ 2 ^ t → np2go fuel n ≤ 2 ^ t := by
  induction fuel with
  | zero =>
    intro n t h ht
    simpa [np2go] using Nat.one_le_two_pow
  | succ fuel IH =>
    intro n t h ht
    by_cases h1 : n ≤ 1
    · simpa [np2go, h1] using Nat.one_le_two_pow
    · simp only [np2go, h1, if_false]
      obtain ⟨s, rfl⟩ : ∃ s, t = s + 1 := by
        rcases t with - | s
        · exfalso; simp at ht; omega
        · exact ⟨s, rfl⟩
      have hhalf : (n + 1) / 2 ≤ 2 ^ s := by
        have h2 : n ≤ 2 * 2 ^ s := by
          have : (2:ℕ) ^ (s + 1) = 2 * 2 ^ s := by ring
          omega
        omega
      have := IH ((n + 1) / 2) s (by omega) hhalf
      have : (2:ℕ) ^ (s + 1) = 2 * 2 ^ s := by ring
      omega

lemma nextPow2_pow (n : ℕ) : ∃ t, nextPow2 n = 2 ^ t := np2go_pow n n le_rfl

lemma nextPow2_ge (n : ℕ) : n ≤ nextPow2 n := np2go_ge n n le_rfl

lemma nextPow2_min {n t : ℕ} (h : n ≤ 2 ^ t) : nextPow2 n ≤ 2 ^ t :=
  np2go_min n n t le_rfl h

lemma nextPow2_mono {n m : ℕ} (h : n ≤ m) : nextPow2 n ≤ nextPow2 m := by
  obtain ⟨t, ht⟩ := nextPow2_pow m
  have := nextPow2_ge m
  exact ht ▸ nextPow2_min (by omega)

lemma nextPow2_eq_self {n : ℕ} (h : IsP2 n) : nextPow2 n = n := by
  obtain ⟨t, rfl⟩ := h
  exact le_antisymm (nextPow2_min le_rfl) (nextPow2_ge _)

lemma nextPow2_succ_of_pow {n : ℕ} (h : IsP2 n) (hn : 1 ≤ n) :
    nextPow2 (n + 1) = 2 * n := by
  obtain ⟨t, rfl⟩ := h
  have hup : nextPow2 (2 ^ t + 1) ≤ 2 * 2 ^ t := by
    have : (2:ℕ) ^ t + 1 ≤ 2 ^ (t + 1) := by
      have : (2:ℕ) ^ (t + 1) = 2 * 2 ^ t := by ring
      omega
    calc nextPow2 (2 ^ t + 1) ≤ 2 ^ (t + 1) := nextPow2_min this
    _ = 2 * 2 ^ t := by ring
  have hdown : 2 * 2 ^ t ≤ nextPow2 (2 ^ t + 1) := by
    obtain ⟨s, hs⟩ := nextPow2_pow (2 ^ t + 1)
    have hge := nextPow2_ge (2 ^ t + 1)
    rw [hs] at hge ⊢
    have hts : t < s := by
      by_contra hc
      have : (2:ℕ) ^ s ≤ 2 ^ t := Nat.pow_le_pow_right (by omega) (by omega)
      omega
    calc 2 * 2 ^ t = 2 ^ (t + 1) := by ring
    _ ≤ 2 ^ s := Nat.pow_le_pow_right (by omega) (by omega)
  omega

lemma nextPow2_succ_of_not_pow {n : ℕ} (h : ¬IsP2 n) (hn : 1 ≤ n) :
    nextPow2 (n + 1) = nextPow2 n := by
  obtain ⟨t, ht⟩ := nextPow2_pow n
  have hge := nextPow2_ge n
  have hne : nextPow2 n ≠ n := fun he => h ⟨t, by omega⟩
  have h1 : nextPow2 (n + 1) ≤ nextPow2 n := by
    rw [ht]; exact nextPow2_min (by omega)
  have h2 : nextPow2 n ≤ nextPow2 (n + 1) := nextPow2_mono (by omega)
  omega

lemma odd_not_pow2 {m : ℕ} (hm : 1 ≤ m) : ¬IsP2 (2 * m + 1) := by
  rintro ⟨t, ht⟩
  rcases t with - | s
  · simp at ht; omega
  · have : (2:ℕ) ^ (s + 1) = 2 * 2 ^ s := by ring
    omega

lemma kept_go_fuel : ∀ (U f g : ℕ), U < f → U < g → kept_go f U = kept_go g U := by
  intro U
  induction U using Nat.strong_induction_on with
  | _ U IH =>
    intro f g hf hg
    obtain ⟨f', rfl⟩ : ∃ f', f = f' + 1 := ⟨f - 1, by omega⟩
    obtain ⟨g', rfl⟩ : ∃ g', g = g' + 1 := ⟨g - 1, by omega⟩
    by_cases h0 : U = 0
    · subst h0; rfl
    by_cases h1 : U = 1
    · subst h1; rfl
    have hrec := IH (U / 2) (Nat.div_lt_self (by omega) (by omega)) f' g'
      (by omega) (by omega)
    simp only [kept_go, if_neg h0, if_neg h1, hrec]

lemma kept_set_eq_go (f U : ℕ) (h : U < f) : kept_set U = kept_go f U :=
  kept_go_fuel U (U + 1) f (by omega) h

lemma kept_set_rec (U : ℕ) (h : 2 ≤ U) :
    kept_set U =
      if is_power_of_two U
      then (kept_set (U / 2)).image (fun n => n * 2) ∪ {U - 1}
      else insert (nextPow2 (U / 2))
        ((kept_set (U / 2)).image (fun n => n * 2) ∪ {U - 1}) := by
  have h0 : U ≠ 0 := by omega
  have h1 : U ≠ 1 := by omega
  have hrec : kept_go U (U / 2) = kept_set (U / 2) :=
    (kept_set_eq_go U (U / 2) (Nat.div_lt_self (by omega) (by omega))).symm
  conv_lhs => rw [show kept_set U = kept_go (U + 1) U from rfl]
  simp only [kept_go, if_neg h0, if_neg h1, hrec]

lemma mem_kept_iff {U n : ℕ} (h : 2 ≤ U) :
    n ∈ kept_set U ↔
      (∃ k ∈ kept_set (U / 2), n = k * 2) ∨ n = U - 1 ∨
        (¬IsP2 U ∧ n = nextPow2 (U / 2)) := by
  rw [kept_set_rec U h]
  split_ifs with hb
  · have hp : IsP2 U := (isPow2_iff U).mp hb
    simp only [Finset.mem_union, Finset.mem_image, Finset.mem_singleton]
    constructor
    · rintro (⟨k, hk, rfl⟩ | rfl)
      · exact Or.inl ⟨k, hk, rfl⟩
      · exact Or.inr (Or.inl rfl)
    · rintro (⟨k, hk, rfl⟩ | rfl | ⟨hnp, -⟩)
      · exact Or.inl ⟨k, hk, rfl⟩
      · exact Or.inr rfl
      · exact absurd hp hnp
  · have hp : ¬IsP2 U := by rw [← isPow2_iff]; exact hb
    simp only [Finset.mem_insert, Finset.mem_union, Finset.mem_image,
      Finset.mem_singleton]
    constructor
    · rintro (rfl | ⟨k, hk, rfl⟩ | rfl)
      · exact Or.inr (Or.inr ⟨hp, rfl⟩)
      · exact Or.inl ⟨k, hk, rfl⟩
      · exact Or.inr (Or.inl rfl)
    · rintro (⟨k, hk, rfl⟩ | rfl | ⟨-, rfl⟩)
      · exact Or.inr (Or.inl ⟨k, hk, rfl⟩)
      · exact Or.inr (Or.inr rfl)
      · exact Or.inl rfl

lemma pow_half_mem : ∀ j, 1 ≤ j → 2 ^ (j - 1) ∈ kept_set (2 ^ j) := by
  intro j
  induction j with
  | zero => omega
  | succ j IH =>
    intro _
    by_cases hj : j = 0
    · subst hj; decide
    · have h2 : 2 ≤ 2 ^ (j + 1) := by
        calc (2:ℕ) = 2 ^ 1 := by ring
        _ ≤ 2 ^ (j + 1) := Nat.pow_le_pow_right (by omega) (by omega)
      rw [mem_kept_iff h2]
      have hhalf : 2 ^ (j + 1) / 2 = 2 ^ j := by
        have : (2:ℕ) ^ (j + 1) = 2 ^ j * 2 := by ring
        rw [this]; exact Nat.mul_div_cancel _ (by omega)
      refine Or.inl ⟨2 ^ (j - 1), ?_, ?_⟩
      · rw [hhalf]; exact IH (by omega)
      · show 2 ^ (j + 1 - 1) = 2 ^ (j - 1) * 2
        have : j - 1 + 1 = j := by omega
        calc 2 ^ (j + 1 - 1) = 2 ^ j := by norm_num
        _ = 2 ^ (j - 1 + 1) := by rw [this]
        _ = 2 ^ (j - 1) * 2 := by ring

lemma kept_step : ∀ U n, n ∈ kept_set (U + 1) → n < U → n ∈ kept_set U := by
  intro U
  induction U using Nat.strong_induction_on with
  | _ U IH =>
    intro n hin hlt
    by_cases h0 : U = 0
    · omega
    by_cases h1 : U = 1
    · subst h1
      have : n = 0 := by omega
      subst this; decide
    have hU2 : 2 ≤ U := by omega
    have hpar : U % 2 = 0 ∨ U % 2 = 1 := by omega
    rcases hpar with hpar | hpar
    · -- U even, U = 2 * m with m ≥ 1
      obtain ⟨m, rfl⟩ : ∃ m, U = 2 * m := ⟨U / 2, by omega⟩
      have hm1 : 1 ≤ m := by omega
      rw [mem_kept_iff (show 2 ≤ 2 * m + 1 by omega),
        show (2 * m + 1) / 2 = m from by omega] at hin
      rw [mem_kept_iff (show 2 ≤ 2 * m by omega),
        show 2 * m / 2 = m from by omega]
      rcases hin with ⟨k, hk, rfl⟩ | heq | ⟨-, rfl⟩
      · exact Or.inl ⟨k, hk, rfl⟩
      · omega
      · by_cases hp2 : IsP2 (2 * m)
        · obtain ⟨t, ht⟩ := hp2
          rcases t with - | s
          · simp at ht; omega
          · have h2s : (2:ℕ) ^ (s + 1) = 2 * 2 ^ s := by ring
            have hms : m = 2 ^ s := by omega
            have hself : nextPow2 m = m := nextPow2_eq_self ⟨s, hms.symm⟩
            rcases Nat.eq_zero_or_pos s with rfl | hs
            · norm_num at hms
              exact Or.inr (Or.inl (by omega))
            · have hmem := pow_half_mem s hs
              refine Or.inl ⟨2 ^ (s - 1), by rw [hms]; exact hmem, ?_⟩
              rw [hself, hms]
              have hsplit : s - 1 + 1 = s := by omega
              calc (2:ℕ) ^ s = 2 ^ (s - 1 + 1) := by rw [hsplit]
              _ = 2 ^ (s - 1) * 2 := by ring
        · exact Or.inr (Or.inr ⟨hp2, rfl⟩)
    · -- U odd, U = 2 * m + 1 with m ≥ 1
      obtain ⟨m, rfl⟩ : ∃ m, U = 2 * m + 1 := ⟨U / 2, by omega⟩
      have hm1 : 1 ≤ m := by omega
      rw [show 2 * m + 1 + 1 = 2 * (m + 1) from by omega,
        mem_kept_iff (show 2 ≤ 2 * (m + 1) by omega),
        show 2 * (m + 1) / 2 = m + 1 from by omega] at hin
      rw [mem_kept_iff (show 2 ≤ 2 * m + 1 by omega),
        show (2 * m + 1) / 2 = m from by omega]
      rcases hin with ⟨k, hk, rfl⟩ | heq | ⟨-, rfl⟩
      · have hkm : k ≤ m := by omega
        rcases eq_or_lt_of_le hkm with rfl | hklt
        · exact Or.inr (Or.inl (by omega))
        · have hkmem : k ∈ kept_set m := IH m (by omega) k hk hklt
          exact Or.inl ⟨k, hkmem, rfl⟩
      · omega
      · by_cases hpm : IsP2 m
        · have h2m : nextPow2 (m + 1) = 2 * m := nextPow2_succ_of_pow hpm hm1
          exact Or.inr (Or.inl (by omega))
        · have heqn : nextPow2 (m + 1) = nextPow2 m :=
            nextPow2_succ_of_not_pow hpm hm1
          exact Or.inr (Or.inr ⟨odd_not_pow2 hm1, heqn⟩)

/-- Persistence of kept snapshots below the smaller horizon, in the direction
the code's own property test checks: an element of `kept_set (U + k)` below
`U` already belongs to `kept_set U`. -/
lemma kept_persist (U k n : ℕ) (h : n ∈ kept_set (U + k)) (hn : n < U) :
    n ∈ kept_set U := by
  induction k with
  | zero => exact h
  | succ k IH => exact IH (kept_step (U + k) n h (by omega))

lemma specKept_rec (U : ℕ) (h : 2 ≤ U) :
    specKept U =
      if is_power_of_two U
      then (specKept (U / 2)).image (fun k => 2 * k) ∪ {U - 1}
      else insert (nextPow2 (U / 2))
        ((specKept (U / 2)).image (fun k => 2 * k) ∪ {U - 1}) := by
  rw [specKept]
  simp only [if_neg (show U ≠ 0 by omega), if_neg (show U ≠ 1 by omega)]

lemma kept_eq_specKept : ∀ U, 1 ≤ U → kept_set U = specKept U := by
  intro U
  induction U using Nat.strong_induction_on with
  | _ U IH =>
    intro hU1
    by_cases h1 : U = 1
    · subst h1
      rw [show kept_set 1 = {0} from by decide, specKept]
      norm_num
    · have h2 : 2 ≤ U := by omega
      have himg : (specKept (U / 2)).image (fun n => n * 2) =
          (specKept (U / 2)).image (fun k => 2 * k) :=
        Finset.image_congr (fun x _ => mul_comm x 2)
      rw [kept_set_rec U h2, specKept_rec U h2,
        IH (U / 2) (Nat.div_lt_self (by omega) (by omega)) (by omega), himg]

/-- C2 (amended): for every horizon `U ≥ 1`, `kept_set U` equals the spec's
reference recursion `specKept`; at `U = 0` the code instead yields `{1}`
(because `0u32.next_power_of_two() = 1` is inserted, `0` not being a power of
two); and the spec's listed concrete values at `U ≥ 1` all hold. -/
theorem c2_kept_set_matches_spec :
    (∀ U, 1 ≤ U → kept_set U = specKept U) ∧
    kept_set 0 = {1} ∧ kept_set 1 = {0} ∧ kept_set 2 = {0, 1} ∧
    kept_set 3 = {0, 1, 2} ∧ kept_set 4 = {0, 2, 3} ∧
    kept_set 6 = {0, 2, 4, 5} ∧ kept_set 8 = {0, 4, 6, 7} ∧
    kept_set 9 = {0, 4, 6, 8} ∧ kept_set 10 = {0, 4, 8, 9} ∧
    kept_set 29 = {0, 8, 16, 24, 26, 28} :=
  ⟨kept_eq_specKept, by decide, by decide, by decide, by decide, by decide,
    by decide, by decide, by decide, by decide, by decide⟩

/-- C2 witness: the universally quantified part of the amended claim applied
at the concrete horizon 6. -/
theorem c2_witness : kept_set 6 = specKept 6 :=
  c2_kept_set_matches_spec.1 6 (by omega)

/-- C2 counterexample: the claim's reference recursion demands
`kept(0) = {}`, but the code returns `{1}` at horizon 0. -/
theorem c2_counterexample : kept_set 0 = {1} ∧ kept_set 0 ≠ (∅ : Finset ℕ) :=
  ⟨by decide, by decide⟩

/-- C4 (amended): the persistence containment holds in the opposite
direction from the claim's wording, the one the code's own property test
checks: every element of `kept_set (U + k)` that is strictly less than `U`
also belongs to `kept_set U`. -/
theorem c4_kept_persistence (U k n : ℕ) (h : n ∈ kept_set (U + k))
    (hn : n < U) : n ∈ kept_set U :=
  kept_persist U k n h hn

/-- C4 witness: the amended containment at `U = 8`, `k = 1`, `n = 4`. -/
theorem c4_witness : 4 ∈ kept_set 8 :=
  c4_kept_persistence 8 1 4 (by decide) (by decide)

/-- C4 counterexample: the claim as stated fails at `U = 8`, `k = 1`,
`n = 7`: `7 ∈ kept_set 8` and `7 < 8`, yet `7 ∉ kept_set 9`. -/
theorem c4_counterexample : 7 ∈ kept_set 8 ∧ 7 < 8 ∧ 7 ∉ kept_set 9 := by
  decide

example : div_duration 7 2 = (3, 1) := by decide

example : div_duration 6 2 = (3, 0) := by decide

example : div_duration 0 5 = (0, 0) := by decide

lemma div_exit {n d mn mx : ℕ} (hlo : d * mn ≤ n) (hhi : n < d * mx)
    (hgap : mx - mn ≤ 1) : d * mn + (n - d * mn) = n ∧ n - d * mn < d := by
  have hmn : mn < mx := by
    by_contra hc
    have h1 : mx ≤ mn := by omega
    have h2 : d * mx ≤ d * mn := Nat.mul_le_mul_left d h1
    omega
  have hmx : mx = mn + 1 := by omega
  have : d * mx = d * mn + d := by rw [hmx]; ring
  omega

lemma divGo_correct (n d : ℕ) :
    ∀ fuel mn mx, mx - mn ≤ 2 ^ fuel → d * mn ≤ n → n < d * mx →
      d * (divGo n d fuel mn mx).1 + (divGo n d fuel mn mx).2 = n ∧
        (divGo n d fuel mn mx).2 < d := by
  intro fuel
  induction fuel with
  | zero =>
    intro mn mx hgap hlo hhi
    simpa [divGo] using div_exit hlo hhi (by simpa using hgap)
  | succ fuel IH =>
    intro mn mx hgap hlo hhi
    have hpow : (2:ℕ) ^ (fuel + 1) = 2 * 2 ^ fuel := by ring
    by_cases hwide : 1 < mx - mn
    · have hd : 0 < d := by
        rcases Nat.eq_zero_or_pos d with rfl | h
        · simp at hhi
        · exact h
      by_cases heq : d * (mn + (mx - mn) / 2) = n
      · simp only [divGo, if_pos hwide, if_pos heq]
        exact ⟨by omega, hd⟩
      · by_cases hgt : n < d * (mn + (mx - mn) / 2)
        · simp only [divGo, if_pos hwide, if_neg heq, if_pos hgt]
          exact IH mn (mn + (mx - mn) / 2) (by omega) hlo hgt
        · simp only [divGo, if_pos hwide, if_neg heq, if_neg hgt]
          exact IH (mn + (mx - mn) / 2) mx (by omega) (by omega) hhi
    · simp only [divGo, if_neg hwide]
      exact div_exit hlo hhi (by omega)

/-- C6 (amended): for `(n, d)` with `d > 0` whose true quotient fits in the
searched `u32` range (`n < d * (2^32 - 1)`) and whose scalar products stay
representable as `Duration`s (`d * (2^32 - 1) ≤ durationMax`, so no
`Duration × u32` multiplication overflows during the search),
`div_duration n d` returns `(q, r)` with `d*q + r = n` and `0 ≤ r < d`. -/
theorem c6_div_duration_euclidean (n d : ℕ) (hd : 0 < d)
    (hq : n < d * (2 ^ 32 - 1)) (hrep : d * (2 ^ 32 - 1) ≤ durationMax) :
    d * (div_duration n d).1 + (div_duration n d).2 = n ∧
      (div_duration n d).2 < d :=
  divGo_correct n d 32 0 (2 ^ 32 - 1) (by norm_num) (by omega) hq

/-- C6 witness: the amended statement at `n = 7` ns, `d = 2` ns. -/
theorem c6_witness :
    2 * (div_duration 7 2).1 + (div_duration 7 2).2 = 7 ∧
      (div_duration 7 2).2 < 2 :=
  c6_div_duration_euclidean 7 2 (by norm_num) (by norm_num)
    (by norm_num [durationMax])

/-- C6 counterexample: at the representable pair `n = 2^32 - 1` ns,
`d = 1` ns, the search bottoms out at `min = u32::MAX - 1` and returns
remainder `1 = d`, violating `r < d` (the true quotient `u32::MAX` is never
probed because `mid < max` always). -/
theorem c6_counterexample :
    div_duration (2 ^ 32 - 1) 1 = (2 ^ 32 - 2, 1) ∧
      ¬((div_duration (2 ^ 32 - 1) 1).2 < 1) ∧
      (0:ℕ) < 1 ∧ (2 ^ 32 - 1 : ℕ) ≤ durationMax := by
  refine ⟨by decide, by decide, by norm_num, by norm_num [durationMax]⟩

lemma runClock_mono : ∀ (sigs : List (Option (Signed ℕ))) (last : ℕ),
    (∀ a ∈ (runClock last sigs).filterMap id, last ≤ a) ∧
      ((runClock last sigs).filterMap id).Pairwise (· ≤ ·) := by
  intro sigs
  induction sigs with
  | nil => intro last; simp [runClock]
  | cons s rest IH =>
    intro last
    match s with
    | none =>
      simpa [runClock, clockElapsedStep] using IH last
    | some (.neg a) =>
      simpa [runClock, clockElapsedStep, Signed.posValue] using IH last
    | some (.pos a) =>
      have hIH := IH (max a last)
      simp only [runClock, clockElapsedStep, Signed.posValue,
        List.filterMap_cons, id, List.pairwise_cons, List.mem_cons]
      refine ⟨?_, ?_, hIH.2⟩
      · rintro b (rfl | hb)
        · omega
        · have := hIH.1 b hb; omega
      · intro b hb
        exact hIH.1 b hb

/-- C3: across any sequence of `elapsed()` calls on one `SharedClock`
(starting from the initial stored `Duration::ZERO`, with the underlying
signed elapsed value arbitrary at each call — in particular free to move
backward under drift adjustment), the `Some` results are nondecreasing in
call order: each returned duration is ≥ every previously returned one. -/
theorem c3_elapsed_never_decreases (sigs : List (Option (Signed ℕ))) :
    ((runClock 0 sigs).filterMap id).Pairwise (· ≤ ·) :=
  (runClock_mono sigs 0).2

/-- C7: evaluation at the failing input.  With 11 RTT samples at instants
1..11 and outstanding pings `(id 100, sent at 0)` and `(id 200, sent at 5)`,
pruning retains the samples at instants 2..11 (oldest retained = 2), yet the
outstanding-ping map afterwards still contains the ping sent at instant 0 —
which is older than the oldest retained sample — and has dropped the fresh
ping sent at instant 5 instead: the filter's comparison is reversed. -/
theorem c7_remove_old_data_keeps_stale_ping :
    (removeOldData
        [(1, 30), (2, 30), (3, 30), (4, 30), (5, 30), (6, 30), (7, 30),
          (8, 30), (9, 30), (10, 30), (11, 30)]
        [(100, 0), (200, 5)]).1.head? = some (2, 30) ∧
    (removeOldData
        [(1, 30), (2, 30), (3, 30), (4, 30), (5, 30), (6, 30), (7, 30),
          (8, 30), (9, 30), (10, 30), (11, 30)]
        [(100, 0), (200, 5)]).2 = [(100, 0)] := by
  constructor <;> rfl

example :
    (NatMap.mk ({5} : Finset ℕ) (fun _ => (7:ℕ))).atFrame 5
      = some (.confirmed 7) := by decide

example :
    (NatMap.mk ({2, 5} : Finset ℕ) (fun k => k + 10)).atFrame 3
      = some (.confirmed 12) := by decide

example :
    (NatMap.mk ({2, 5} : Finset ℕ) (fun k => k + 10)).atFrame 7
      = some (.unconfirmed 15) := by decide

example :
    (NatMap.mk ({2, 5} : Finset ℕ) (fun k => k + 10)).atFrame 1 = none := by
  decide

/-- C1 (amended): for every sparse input map and frame `f`, `at(f)` returns
`None` when no key `≤ f` exists; otherwise it returns the value of the
greatest key `b ≤ f`, tagged `Confirmed` when `f` itself is a key or some
key strictly greater than `f` exists, and `Unconfirmed` only when `f` is not
a key and no later key exists. -/
theorem c1_sparse_at_hold_last (V : Type) (m : NatMap V) (f : ℕ) :
    ((m.keys.filter (fun k => k ≤ f)) = ∅ → m.atFrame f = none) ∧
    (∀ b ∈ m.keys, b ≤ f → (∀ k ∈ m.keys, k ≤ f → k ≤ b) →
      m.atFrame f =
        some (if b = f ∨ (m.keys.filter (fun k => f < k)).Nonempty
          then Confirmation.confirmed (m.val b)
          else Confirmation.unconfirmed (m.val b))) := by
  constructor
  · intro hempty
    rw [NatMap.atFrame, dif_neg]
    rw [hempty]
    exact Finset.not_nonempty_empty
  · intro b hb hbf hmax
    have hbmem : b ∈ m.keys.filter (fun k => k ≤ f) :=
      Finset.mem_filter.mpr ⟨hb, hbf⟩
    have hne : (m.keys.filter (fun k => k ≤ f)).Nonempty := ⟨b, hbmem⟩
    have hmaxeq : (m.keys.filter (fun k => k ≤ f)).max' hne = b := by
      apply le_antisymm
      · apply Finset.max'_le
        intro y hy
        obtain ⟨hy1, hy2⟩ := Finset.mem_filter.mp hy
        exact hmax y hy1 hy2
      · exact Finset.le_max' _ b hbmem
    simp only [NatMap.atFrame, dif_pos hne, hmaxeq]
    by_cases hbf' : b = f
    · rw [if_pos hbf', if_pos (Or.inl hbf')]
    · rw [if_neg hbf']
      by_cases hafter : (m.keys.filter (fun k => f ≤ k)).Nonempty
      · have hgt : (m.keys.filter (fun k => f < k)).Nonempty := by
          obtain ⟨k, hk⟩ := hafter
          obtain ⟨hk1, hk2⟩ := Finset.mem_filter.mp hk
          refine ⟨k, Finset.mem_filter.mpr ⟨hk1, ?_⟩⟩
          rcases eq_or_lt_of_le hk2 with heq | h
          · exfalso
            have := hmax k hk1 (by omega)
            omega
          · exact h
        rw [if_pos hafter, if_pos (Or.inr hgt)]
      · have hgt : ¬(m.keys.filter (fun k => f < k)).Nonempty := by
          rintro ⟨k, hk⟩
          obtain ⟨hk1, hk2⟩ := Finset.mem_filter.mp hk
          exact hafter ⟨k, Finset.mem_filter.mpr ⟨hk1, by omega⟩⟩
        rw [if_neg hafter, if_neg (not_or.mpr ⟨hbf', hgt⟩)]

/-- C1 witness: the amended read at the map `{2 ↦ 12, 5 ↦ 15}` and frame 3:
hold-last gives the value at key 2, `Confirmed` because key 5 > 3 exists. -/
theorem c1_witness :
    (NatMap.mk ({2, 5} : Finset ℕ) (fun k => k + 10)).atFrame 3
      = some (Confirmation.confirmed 12) := by
  have h :=
    (c1_sparse_at_hold_last ℕ (NatMap.mk ({2, 5} : Finset ℕ) (fun k => k + 10))
        3).2 2 (by decide) (by decide) (by decide)
  rw [if_pos (by decide)] at h
  exact h

/-- C1 counterexample: on the map `{5 ↦ 7}` at frame 5, no key strictly
greater than 5 exists, so the claim as stated demands `Unconfirmed(7)`; the
code's exact-key arm returns `Confirmed(7)`. -/
theorem c1_counterexample :
    (NatMap.mk ({5} : Finset ℕ) (fun _ => (7:ℕ))).atFrame 5
        = some (Confirmation.confirmed 7) ∧
      (({5} : Finset ℕ).filter (fun k => 5 < k)) = ∅ ∧
      some (Confirmation.confirmed (7:ℕ))
        ≠ some (Confirmation.unconfirmed (7:ℕ)) := by
  refine ⟨by decide, by decide, by decide⟩

lemma atFrame_zero_of_mem (m : NatMap V) (h0 : 0 ∈ m.keys) :
    m.atFrame 0 = some (.confirmed (m.val 0)) := by
  have h0f : 0 ∈ m.keys.filter (fun k => k ≤ 0) :=
    Finset.mem_filter.mpr ⟨h0, le_rfl⟩
  have hne : (m.keys.filter (fun k => k ≤ 0)).Nonempty := ⟨0, h0f⟩
  have hmax : (m.keys.filter (fun k => k ≤ 0)).max' hne = 0 := by
    apply le_antisymm
    · apply Finset.max'_le
      intro y hy
      exact (Finset.mem_filter.mp hy).2
    · exact Finset.le_max' _ 0 h0f
  simp only [NatMap.atFrame, dif_pos hne, hmax]
  simp

lemma mergeStep_frame0 (p : ℕ) (kv : ℕ × V) (s : InputStorage V)
    (hp : p ∈ s.players) (h0 : 0 ∈ (s.inputs p).map.keys) :
    p ∈ (mergeStep p s kv).players ∧
      0 ∈ ((mergeStep p s kv).inputs p).map.keys ∧
      ((mergeStep p s kv).inputs p).map.val 0 = (s.inputs p).map.val 0 := by
  simp only [mergeStep, InputStorage.orDefaultTouch, if_pos hp,
    InputStorage.setSparse, Function.update_same]
  refine ⟨Finset.mem_insert_self p _, ?_⟩
  by_cases hk : kv.1 ∈ (s.inputs p).map.keys
  · simp [NatMap.orInsert, hk, h0]
  · have hne : (0:ℕ) ≠ kv.1 := fun he => hk (he ▸ h0)
    simp only [NatMap.orInsert, if_neg hk, NatMap.insertKV]
    exact ⟨Finset.mem_insert_of_mem h0, Function.update_noteq hne _ _⟩

lemma mergeRemote_frame0 (p : ℕ) :
    ∀ (batch : List (ℕ × V)) (s : InputStorage V), p ∈ s.players →
      0 ∈ (s.inputs p).map.keys →
      p ∈ (s.mergeRemote p batch).players ∧
        0 ∈ ((s.mergeRemote p batch).inputs p).map.keys ∧
        ((s.mergeRemote p batch).inputs p).map.val 0 = (s.inputs p).map.val 0 := by
  intro batch
  induction batch with
  | nil => exact fun s hp h0 => ⟨hp, h0, rfl⟩
  | cons kv rest IH =>
    intro s hp h0
    obtain ⟨hp', h0', hv'⟩ := mergeStep_frame0 p kv s hp h0
    obtain ⟨hp'', h0'', hv''⟩ := IH (mergeStep p s kv) hp' h0'
    rw [show s.mergeRemote p (kv :: rest)
        = (mergeStep p s kv).mergeRemote p rest from rfl]
    exact ⟨hp'', h0'', by rw [hv'', hv']⟩

/-- C8 (amended): a remote `Frame(0)` entry is ignored only when the
player's sparse map already holds a `Frame(0)` entry — which is the case
exactly when the map was created through `sparse_mut`'s default seeding.
Then `at(Frame 0)` still reads the previously stored value (`Confirmed`,
since frame 0 is a key).  For a player with no stored map, `merge_remote`
creates it via `or_default` (no seeding) and the batch's `Frame(0)` value is
inserted.  A local `capture_into(Frame 0, ...)` is always rejected with the
storage unchanged. -/
theorem c8_frame_zero_default (V : Type) [DecidableEq V] (s : InputStorage V)
    (p localId : ℕ) (batch : List (ℕ × V)) (v : V)
    (hp : p ∈ s.players) (h0 : 0 ∈ (s.inputs p).map.keys) :
    ((s.mergeRemote p batch).inputs p).map.atFrame 0
        = some (.confirmed ((s.inputs p).map.val 0)) ∧
    (∀ (s2 : InputStorage V), s2.captureInto 0 localId v = (none, s2)) ∧
    (∀ (s2 : InputStorage V) (q : ℕ), q ∉ s2.players →
      (s2.sparseMut q).inputs q = seededSparse s2.dflt ∧
      (((s2.sparseMut q).mergeRemote q batch).inputs q).map.atFrame 0
        = some (.confirmed s2.dflt)) := by
  refine ⟨?_, ?_, ?_⟩
  · obtain ⟨-, h0', hv'⟩ := mergeRemote_frame0 p batch s hp h0
    rw [atFrame_zero_of_mem _ h0', hv']
  · intro s2
    simp [InputStorage.captureInto]
  · intro s2 q hq
    have hseed : (s2.sparseMut q).inputs q = seededSparse s2.dflt := by
      simp [InputStorage.sparseMut, if_neg hq, Function.update_same]
    refine ⟨hseed, ?_⟩
    have hq' : q ∈ (s2.sparseMut q).players := by
      simp [InputStorage.sparseMut, if_neg hq]
    have h0' : 0 ∈ ((s2.sparseMut q).inputs q).map.keys := by
      rw [hseed]; exact Finset.mem_singleton_self 0
    obtain ⟨-, h0'', hv''⟩ := mergeRemote_frame0 q batch _ hq' h0'
    rw [atFrame_zero_of_mem _ h0'', hv'', hseed]
    rfl

/-- C8 witness: with default blob `0`, player 3 seeded via `sparse_mut`, a
remote batch `{0 ↦ 9}` is ignored at frame 0: the read still returns the
default. -/
theorem c8_witness :
    ((((InputStorage.withDefault (0:ℕ)).sparseMut 3).mergeRemote 3
          [(0, 9)]).inputs 3).map.atFrame 0
      = some (Confirmation.confirmed 0) :=
  (c8_frame_zero_default ℕ ((InputStorage.withDefault (0:ℕ)).sparseMut 3) 3 0
      [(0, 9)] 0 (by decide) (by decide)).1

/-- C8 counterexample: with default blob `0` and a player 7 that has no
stored map yet, merging a remote batch containing `Frame(0) ↦ 5` makes
`at(Frame 0)` return the remote value `5`, not the configured default `0`:
`merge_remote` creates the map with `or_default`, which does not seed the
default at `Frame(0)`. -/
theorem c8_counterexample :
    (((InputStorage.withDefault (0:ℕ)).mergeRemote 7 [(0, 5)]).inputs
          7).map.atFrame 0
        = some (Confirmation.confirmed 5) ∧
      (5:ℕ) ≠ 0 :=
  ⟨by decide, by decide⟩

lemma sparseMut_players (s : InputStorage V) (id : ℕ) :
    (s.sparseMut id).players ⊆ insert id s.players := by
  rw [InputStorage.sparseMut]
  split
  · exact Finset.subset_insert id s.players
  · exact Finset.Subset.refl _

lemma captureInto_players [DecidableEq V] (s : InputStorage V)
    (f localId : ℕ) (v : V) :
    (s.captureInto f localId v).2.players ⊆ insert localId s.players := by
  rw [InputStorage.captureInto]
  split
  · exact Finset.subset_insert localId s.players
  · split
    · exact sparseMut_players s localId
    · refine Finset.Subset.trans (Finset.insert_subset_insert localId
        (sparseMut_players s localId)) ?_
      rw [Finset.insert_idem]

lemma mergeStep_players (p : ℕ) (st : InputStorage V) (kv : ℕ × V) :
    (mergeStep p st kv).players ⊆ insert p st.players := by
  have horDefault : (st.orDefaultTouch p).players ⊆ insert p st.players := by
    rw [InputStorage.orDefaultTouch]
    split
    · exact Finset.subset_insert p st.players
    · exact Finset.Subset.refl _
  calc (mergeStep p st kv).players = insert p (st.orDefaultTouch p).players := rfl
  _ ⊆ insert p (insert p st.players) := Finset.insert_subset_insert p horDefault
  _ = insert p st.players := Finset.insert_idem p st.players

lemma mergeRemote_players (p : ℕ) :
    ∀ (batch : List (ℕ × V)) (st : InputStorage V),
      (st.mergeRemote p batch).players ⊆ insert p st.players := by
  intro batch
  induction batch with
  | nil => exact fun st => Finset.subset_insert p st.players
  | cons kv rest IH =>
    intro st
    calc (st.mergeRemote p (kv :: rest)).players
        = ((mergeStep p st kv).mergeRemote p rest).players := rfl
    _ ⊆ insert p (mergeStep p st kv).players := IH (mergeStep p st kv)
    _ ⊆ insert p (insert p st.players) :=
       Finset.insert_subset_insert p (mergeStep_players p st kv)
    _ = insert p st.players := Finset.insert_idem p st.players

lemma applyOp_players [DecidableEq V] (remoteIds : Finset ℕ) (localId : ℕ)
    (s : InputStorage V) (op : SessionOp V)
    (hv : opValid remoteIds op = true)
    (hs : s.players ⊆ insert localId remoteIds) :
    (applyOp localId s op).players ⊆ insert localId remoteIds := by
  have habsorb : insert localId s.players ⊆ insert localId remoteIds :=
    Finset.insert_subset_iff.mpr ⟨Finset.mem_insert_self _ _, hs⟩
  cases op with
  | capture f v =>
    exact Finset.Subset.trans (captureInto_players s f localId v) habsorb
  | mergeRemote p batch =>
    have hp : p ∈ remoteIds := of_decide_eq_true hv
    refine Finset.Subset.trans (mergeRemote_players p batch s) ?_
    exact Finset.insert_subset_iff.mpr
      ⟨Finset.mem_insert_of_mem hp, hs⟩
  | sinceFrame f =>
    exact Finset.Subset.trans (sparseMut_players s localId) habsorb

lemma applyOps_players [DecidableEq V] (remoteIds : Finset ℕ) (localId : ℕ) :
    ∀ (ops : List (SessionOp V)) (s : InputStorage V),
      (∀ op ∈ ops, opValid remoteIds op = true) →
      s.players ⊆ insert localId remoteIds →
      (applyOps localId s ops).players ⊆ insert localId remoteIds := by
  intro ops
  induction ops with
  | nil => exact fun s _ hs => hs
  | cons op rest IH =>
    intro s hv hs
    exact IH (applyOp localId s op)
      (fun o ho => hv o (List.mem_cons_of_mem op ho))
      (applyOp_players remoteIds localId s op (hv op (List.mem_cons_self op rest)) hs)

/-- C10: starting from the empty store, after any sequence of driver
operations — local captures, local `player_since_frame` reads, and remote
merges whose player ids passed the address filter (i.e. come from the
configured peer list `addrs`) — the store holds entries only for the local
id and configured remote ids; hence every `PlayerInputs` built by
`at_frame` has at most `remote_count + 1` entries, where `remote_count` is
the number of configured peer addresses, so the `len <= should_have`
assertion inside `is_fully_populated` never fails. -/
theorem c10_at_frame_bounded (V : Type) [DecidableEq V] (d : V)
    (localId : ℕ) (addrs : List (ℕ × ℕ)) (ops : List (SessionOp V))
    (hv : ∀ op ∈ ops, opValid (addrs.map Prod.snd).toFinset op = true) :
    (applyOps localId (InputStorage.withDefault d) ops).players
        ⊆ insert localId (addrs.map Prod.snd).toFinset ∧
    ∀ f pi,
      (applyOps localId (InputStorage.withDefault d) ops).atFrame f = some pi →
      pi.keys.card ≤ addrs.length + 1 := by
  have hplayers := applyOps_players (V := V) (addrs.map Prod.snd).toFinset
    localId ops (InputStorage.withDefault d) hv
    (by rw [InputStorage.withDefault]; exact Finset.empty_subset _)
  refine ⟨hplayers, ?_⟩
  intro f pi hpi
  set st := applyOps localId (InputStorage.withDefault d) ops with hst
  by_cases hf :
      (st.players.filter (fun p => ((st.inputs p).map.atFrame f).isSome)) = ∅
  · rw [InputStorage.atFrame, if_pos hf] at hpi
    exact absurd hpi (by simp)
  · rw [InputStorage.atFrame, if_neg hf] at hpi
    obtain rfl := (Option.some_injective _ hpi).symm
    have hsub : (st.players.filter
        (fun p => ((st.inputs p).map.atFrame f).isSome)) ⊆
          insert localId (addrs.map Prod.snd).toFinset :=
      Finset.Subset.trans (Finset.filter_subset _ _) hplayers
    calc (st.players.filter
          (fun p => ((st.inputs p).map.atFrame f).isSome)).card
        ≤ (insert localId (addrs.map Prod.snd).toFinset).card :=
          Finset.card_le_card hsub
    _ ≤ (addrs.map Prod.snd).toFinset.card + 1 := Finset.card_insert_le _ _
    _ ≤ (addrs.map Prod.snd).length + 1 :=
          Nat.add_le_add_right (addrs.map Prod.snd).toFinset_card_le 1
    _ = addrs.length + 1 := by rw [List.length_map]

/-- C10 witness: the player-key invariant applied to a concrete run: local
id 0, one configured peer (address 42, id 1), a capture, a merge from that
peer and a `player_since_frame` send. -/
theorem c10_witness :
    (applyOps 0 (InputStorage.withDefault (0:ℕ))
        [SessionOp.capture 1 5, SessionOp.mergeRemote 1 [(2, 7)],
          SessionOp.sinceFrame 0]).players
      ⊆ insert 0 (([((42:ℕ), (1:ℕ))].map Prod.snd).toFinset) :=
  (c10_at_frame_bounded ℕ 0 0 [(42, 1)]
      [SessionOp.capture 1 5, SessionOp.mergeRemote 1 [(2, 7)],
        SessionOp.sinceFrame 0]
      (by decide)).1

/-- C5 (amended): the wire envelope has exactly the three variants
`Inputs`, `Unconfirmed`, `Clock`, in that order (bincode tags 0, 1, 2); on
receipt the driver dispatches them respectively to the input-store merge, a
max-update of `remote_unconfirmed` (`or_insert(frame)` then
`max(current, frame)`, other players untouched), and the clock's
`receive_message`. -/
theorem c5_message_dispatch (V C : Type)
    (clockReceive : C → ℕ → ClockMessage → C) (st : NetState V C)
    (addr player : ℕ) :
    Fintype.card MessageKind = 3 ∧
    (∀ m : Message V, m.kind = .Inputs ↔ m.tag = 0) ∧
    (∀ m : Message V, m.kind = .Unconfirmed ↔ m.tag = 1) ∧
    (∀ m : Message V, m.kind = .Clock ↔ m.tag = 2) ∧
    (∀ map, processMessage clockReceive st addr player (.Inputs map)
      = { st with storage := st.storage.mergeRemote player map }) ∧
    (∀ frame,
      (processMessage clockReceive st addr player (.Unconfirmed frame)).storage
          = st.storage ∧
      (processMessage clockReceive st addr player (.Unconfirmed frame)).clock
          = st.clock ∧
      (∀ q, q ≠ player →
        (processMessage clockReceive st addr player
            (.Unconfirmed frame)).remoteUnconfirmed q
          = st.remoteUnconfirmed q) ∧
      (st.remoteUnconfirmed player = none →
        (processMessage clockReceive st addr player
            (.Unconfirmed frame)).remoteUnconfirmed player = some frame) ∧
      (∀ c, st.remoteUnconfirmed player = some c →
        (processMessage clockReceive st addr player
            (.Unconfirmed frame)).remoteUnconfirmed player
          = some (max c frame))) ∧
    (∀ m, processMessage clockReceive st addr player (.Clock m)
      = { st with clock := clockReceive st.clock addr m }) := by
  refine ⟨rfl, ?_, ?_, ?_, fun _ => rfl, ?_, fun _ => rfl⟩
  · intro m; cases m <;> simp [Message.kind, Message.tag]
  · intro m; cases m <;> simp [Message.kind, Message.tag]
  · intro m; cases m <;> simp [Message.kind, Message.tag]
  · intro frame
    refine ⟨rfl, rfl, ?_, ?_, ?_⟩
    · intro q hq
      simp [processMessage, Function.update_noteq hq]
    · intro hnone
      simp [processMessage, hnone]
    · intro c hc
      simp [processMessage, hc]

/-- C5 witness: the dispatch properties at a concrete state (trivial clock
`Unit`), applied for the `Unconfirmed` variant with a previously stored
horizon. -/
theorem c5_witness :
    (processMessage (fun c _ _ => c)
        (NetState.mk (InputStorage.withDefault (0:ℕ)) (fun _ => some 4) ())
        9 1 (.Unconfirmed 6)).remoteUnconfirmed 1 = some (max 4 6) :=
  ((c5_message_dispatch ℕ Unit (fun c _ _ => c)
      (NetState.mk (InputStorage.withDefault (0:ℕ)) (fun _ => some 4) ())
      9 1).2.2.2.2.2.1 6).2.2.2.2 4 rfl

/-- C5 counterexample: the envelope has three variants, not four — there is
no `Plugin` variant in the crate's `Message` enum. -/
theorem c5_counterexample :
    Fintype.card MessageKind = 3 ∧ Fintype.card MessageKind ≠ 4 := by
  refine ⟨rfl, by decide⟩

/-- C9: whatever the handler answers to an `Advance { amount, .. }` request
— continue or break — `host_at` has advanced by `amount` when
`advance_with` returns, and a break is propagated (so on resumption the
driver recomputes its position from the already-advanced `host_at` and does
not re-issue the request). -/
theorem c9_advance_always_bumps_host_at (B : Type) (b : B)
    (s : AdvanceState) (amount : ℕ) :
    (Session.advanceWith s (CFlow.Break b) amount).1.host_at
        = s.host_at + amount ∧
    (Session.advanceWith s (CFlow.Continue () : CFlow B Unit)
        amount).1.host_at = s.host_at + amount ∧
    (Session.advanceWith s (CFlow.Break b) amount).2 = CFlow.Break b ∧
    (Session.advanceWith s (CFlow.Continue () : CFlow B Unit) amount).2
        = CFlow.Continue () :=
  ⟨rfl, rfl, rfl, rfl⟩

end Rbrb

